import Mathlib

/-!
Verification of the gopdeps import-resolution core (`x/gopdeps/godeps.go`).

The embedding models:
* the Go standard library's `path.Clean` / `path.Join` (slash-separated,
  segment-normalizing) used by `canonicalGo`;
* the Go standard library's `strconv.Unquote` used by `goToString`, at the
  rune level (Lean `Char` stands for a Go rune; the byte-level UTF-8
  encoding details of the Go implementation are abstracted: a `\xNN`
  escape yields the character of that code point, and a surrogate
  code point from `\u`/`\U` yields U+FFFD, as Go's rune encoder emits);
* the `gopdeps` package itself: `ImportsParser.ParseGoImport`,
  `importGo`, `canonicalGo`, `goToString`.  A Go panic is modelled as
  `Option.none`; the `error` return of `ParseGoImport` is the second
  component of its result.
-/

namespace GopDeps

/-- Split a character list at every occurrence of `sep` (model of Go
`strings.Split` for a one-character separator; empty fields are kept). -/
def splitOnChar (sep : Char) : List Char → List (List Char)
  | [] => [[]]
  | c :: rest =>
    match splitOnChar sep rest with
    | [] => if c = sep then [[], [c]] else [[c]]
    | g :: gs => if c = sep then [] :: g :: gs else (c :: g) :: gs

/-- One step of Go `path.Clean`, processing segment `seg` against the stack
of already-emitted segments (stored in reverse).  Empty and `.` segments are
dropped; `..` pops the previous segment when one is available, is dropped at
the root of a rooted path, and is kept when it cannot be resolved in a
relative path. -/
def cleanStep (rooted : Bool) (stack : List (List Char)) (seg : List Char) :
    List (List Char) :=
  if seg = [] ∨ seg = ['.'] then stack
  else if seg = ['.', '.'] then
    match stack with
    | [] => if rooted then [] else [['.', '.']]
    | top :: rest => if top = ['.', '.'] then seg :: top :: rest else rest
  else seg :: stack

/-- Model of Go `path.Clean`: returns the shortest equivalent
slash-separated path, eliminating `.` and empty segments and resolving
`..` segments upward. -/
def pathClean (s : String) : String :=
  match s.data with
  | [] => "."
  | c :: rest =>
    let rooted := c = '/'
    let stack := (splitOnChar '/' (c :: rest)).foldl (cleanStep rooted) []
    let out := List.intercalate ['/'] stack.reverse
    if rooted then String.mk ('/' :: out)
    else if out = [] then "." else String.mk out

/-- Model of Go `path.Join` restricted to two elements: joins the non-empty
elements with a slash and cleans the result; the join of two empty strings
is empty. -/
def pathJoin (a b : String) : String :=
  if a = "" ∧ b = "" then ""
  else if a = "" then pathClean b
  else pathClean (a ++ "/" ++ b)

/-- Model of Go `strings.HasPrefix`. -/
def strStartsWith (s pre : String) : Bool :=
  List.isPrefixOf pre.data s.data

/-- The backquote character, U+0060 (spelled via its code point). -/
def backquoteChar : Char := Char.ofNat 96

/-- The single-quote character, U+0027 (spelled via its code point). -/
def singleQuoteChar : Char := Char.ofNat 39

/-- Value of a hexadecimal digit character, `none` for other characters. -/
def hexVal (c : Char) : Option Nat :=
  if '0' ≤ c ∧ c ≤ '9' then some (c.toNat - 48)
  else if 'a' ≤ c ∧ c ≤ 'f' then some (c.toNat - 87)
  else if 'A' ≤ c ∧ c ≤ 'F' then some (c.toNat - 55)
  else none

/-- Value of an octal digit character, `none` for other characters. -/
def octVal (c : Char) : Option Nat :=
  if '0' ≤ c ∧ c ≤ '7' then some (c.toNat - 48) else none

/-- Read exactly `n` digits in base `base` from the front of the list,
accumulating onto `acc`; fails when a character is not a digit or the
input is too short. -/
def readDigits (dig : Char → Option Nat) (base : Nat) :
    Nat → Nat → List Char → Option (Nat × List Char)
  | 0, acc, rest => some (acc, rest)
  | n + 1, acc, l =>
    match l with
    | [] => none
    | c :: rest =>
      match dig c with
      | some d => readDigits dig base n (acc * base + d) rest
      | none => none

/-- Character for a decoded rune value: Go's rune encoder turns a
surrogate code point into U+FFFD. -/
def runeToChar (v : Nat) : Char :=
  if 0xD800 ≤ v ∧ v < 0xE000 then Char.ofNat 0xFFFD else Char.ofNat v

/-- Model of Go `strconv.UnquoteChar`: decode the first (possibly escaped)
character of `l` inside a literal delimited by `quote`.  An unescaped
`quote`, a truncated or unknown escape, an octal value above 255, a
`\U` value above the maximum rune, or an empty input all fail (`none`). -/
def unquoteChar (quote : Char) : List Char → Option (Char × List Char)
  | [] => none
  | c :: rest =>
    if c = quote then none
    else if c ≠ '\\' then some (c, rest)
    else
      match rest with
      | [] => none
      | e :: r2 =>
        if e = 'a' then some (Char.ofNat 7, r2)
        else if e = 'b' then some (Char.ofNat 8, r2)
        else if e = 'f' then some (Char.ofNat 12, r2)
        else if e = 'n' then some (Char.ofNat 10, r2)
        else if e = 'r' then some (Char.ofNat 13, r2)
        else if e = 't' then some (Char.ofNat 9, r2)
        else if e = 'v' then some (Char.ofNat 11, r2)
        else if e = 'x' then
          match readDigits hexVal 16 2 0 r2 with
          | some (v, r3) => some (Char.ofNat v, r3)
          | none => none
        else if e = 'u' then
          match readDigits hexVal 16 4 0 r2 with
          | some (v, r3) => some (runeToChar v, r3)
          | none => none
        else if e = 'U' then
          match readDigits hexVal 16 8 0 r2 with
          | some (v, r3) =>
            if v > 0x10FFFF then none else some (runeToChar v, r3)
          | none => none
        else if '0' ≤ e ∧ e ≤ '7' then
          match readDigits octVal 8 2 (e.toNat - 48) r2 with
          | some (v, r3) => if v > 255 then none else some (Char.ofNat v, r3)
          | none => none
        else if e = '\\' then some ('\\', r2)
        else if e = '"' ∨ e = singleQuoteChar then
          if e = quote then some (e, r2) else none
        else none

/-- Decoding loop of Go `strconv.Unquote` over the inner text of a
double- or single-quoted literal: decode characters until the input is
exhausted; a single-quoted literal must contain exactly one character.
The fuel argument bounds the recursion; `inner.length` is always enough
because every step consumes at least one character. -/
def unquoteBody (quote : Char) : Nat → List Char → List Char → Option String
  | _, [], acc => some (String.mk acc.reverse)
  | 0, _ :: _, _ => none
  | fuel + 1, c :: rest, acc =>
    match unquoteChar quote (c :: rest) with
    | none => none
    | some (r, rem) =>
      if quote = singleQuoteChar ∧ rem ≠ [] then none
      else unquoteBody quote fuel rem (r :: acc)

/-- Model of Go `strconv.Unquote` (Go 1.16): the input must be at least
two characters long and begin and end with the same quote character.  A
backquoted raw literal may not contain another backquote and has its
carriage returns removed; a double-quoted or single-quoted literal may not
contain a raw newline and is decoded escape by escape. -/
def goUnquote (s : String) : Option String :=
  match s.data with
  | [] => none
  | quote :: rest =>
    match rest.reverse with
    | [] => none
    | lastc :: revInner =>
      if lastc ≠ quote then none
      else
        let inner := revInner.reverse
        if quote = backquoteChar then
          if inner.contains backquoteChar then none
          else some (String.mk (inner.filter fun c => c != '\r'))
        else if quote = '"' ∨ quote = singleQuoteChar then
          if inner.contains '\n' then none
          else unquoteBody quote inner.length inner []
        else none

/-- Token kinds of `go/token` that can appear as the `Kind` of a basic
literal (the subset relevant here; `STRING` is the only kind `goToString`
accepts). -/
inductive Token where
  | STRING
  | INT
  | FLOAT
  | IMAG
  | CHAR
deriving DecidableEq, Repr

/-- Model of `go/ast.BasicLit`: a literal token kind together with its raw
source text. -/
structure BasicLit where
  kind : Token
  value : String
deriving Repr

/-- Model of `go/ast.ImportSpec`: the raw path literal of one import
declaration (the only field `importGo` reads). -/
structure ImportSpec where
  path : BasicLit
deriving Repr

/-- Modelled from the spec: the Module collaborator (the type of the
parser's `mod` field is declared outside `godeps.go`); its one essential
attribute is its canonical root import path, read by the `Path()`
accessor. -/
structure Module where
  rootPath : String
deriving Repr

/-- The `Path()` accessor of the Module collaborator. -/
def Module.Path (m : Module) : String := m.rootPath

instance : DecidableEq Module := fun m n =>
  decidable_of_iff (m.rootPath = n.rootPath) (by cases m; cases n; simp)

/-- Modelled from the spec: the `ImportsParser` struct declaration is
outside `godeps.go`; its methods there fix the fields used: `mod` (the
owning Module) and `imports`, a `map[string]struct\x7b\x7d` used as a set of
canonical import paths, modelled as a `Finset`.  The `fset` field is
consumed only by the external `go/parser.ParseFile` and is absorbed into
`GoFile` below. -/
structure ImportsParser where
  mod : Module
  imports : Finset String

instance : DecidableEq ImportsParser := fun p q =>
  decidable_of_iff (p.mod = q.mod ∧ p.imports = q.imports)
    (by cases p; cases q; simp)

/-- Embedding of `(*ImportsParser).canonicalGo`: a raw path with the
string prefix `"."` is joined onto the module root path; any other path is
returned unchanged. -/
def ImportsParser.canonicalGo (p : ImportsParser) (pkgPath : String) : String :=
  if strStartsWith pkgPath "." then pathJoin p.mod.Path pkgPath
  else pkgPath

/-- Embedding of `goToString`: when the literal's kind is `STRING` and
unquoting succeeds the decoded value is returned; every other case is a Go
panic, modelled as `none`. -/
def goToString (l : BasicLit) : Option String :=
  if l.kind = Token.STRING then
    match goUnquote l.value with
    | some s => some s
    | none => none
  else none

/-- Embedding of `(*ImportsParser).importGo`: decode the import's path
literal, canonicalize it, and insert it into the accumulated set.  A panic
of `goToString` propagates as `none`. -/
def ImportsParser.importGo (p : ImportsParser) (spec : ImportSpec) :
    Option ImportsParser :=
  match goToString spec.path with
  | some s => some { p with imports := insert (p.canonicalGo s) p.imports }
  | none => none

/-- The `for _, imp := range f.Imports` loop body of `ParseGoImport`,
threading the parser state through `importGo`; a panic propagates. -/
def importGoList : ImportsParser → List ImportSpec → Option ImportsParser
  | p, [] => some p
  | p, spec :: rest =>
    match p.importGo spec with
    | some p2 => importGoList p2 rest
    | none => none

/-- A source file, abstracted by the outcome the external collaborator
`go/parser.ParseFile` (mode `ImportsOnly`) yields for it: either a parse
error or the file's list of import declarations. -/
structure GoFile where
  parsed : Except String (List ImportSpec)

/-- Embedding of `(*ImportsParser).ParseGoImport`: on a parse error the
error is returned and the state is untouched; otherwise every import of
the file is fed through `importGo`.  The outer `Option` is panic
propagation; the inner `Option String` is the Go `error` result. -/
def ImportsParser.ParseGoImport (p : ImportsParser) (gopfile : GoFile) :
    Option (ImportsParser × Option String) :=
  match gopfile.parsed with
  | Except.error e => some (p, some e)
  | Except.ok imps => (importGoList p imps).map fun p2 => (p2, none)

/-- Spec-side predicate: the raw path begins with a relative-path marker
in the sense of the spec, i.e. a leading `.` path component (`.`, `..`,
`./x` or `../x`). -/
def hasLeadingDotComponent (s : String) : Bool :=
  s == "." || s == ".." || strStartsWith s "./" || strStartsWith s "../"

/-- The canonicalized import set a list of import declarations contributes
under module `m` (the decodable paths, canonicalized). -/
def canonSet (m : Module) (imps : List ImportSpec) : Finset String :=
  (imps.filterMap fun spec =>
    (goToString spec.path).map fun s =>
      ImportsParser.canonicalGo { mod := m, imports := ∅ } s).toFinset

theorem canonicalGo_congr {p q : ImportsParser} (h : p.mod = q.mod) (s : String) :
    p.canonicalGo s = q.canonicalGo s := by
  simp [ImportsParser.canonicalGo, h]

theorem startsWith_dot_of_marker (s : String)
    (h : hasLeadingDotComponent s = true) : strStartsWith s "." = true := by
  simp only [hasLeadingDotComponent, Bool.or_eq_true, beq_iff_eq] at h
  rcases h with ((h | h) | h) | h
  · subst h; decide
  · subst h; decide
  · simp only [strStartsWith, List.isPrefixOf_iff_prefix] at h ⊢
    exact List.IsPrefix.trans ⟨['/'], rfl⟩ h
  · simp only [strStartsWith, List.isPrefixOf_iff_prefix] at h ⊢
    exact List.IsPrefix.trans ⟨['.', '/'], rfl⟩ h

theorem canonSet_nil (m : Module) : canonSet m [] = ∅ := rfl

theorem canonSet_cons_some (m : Module) (spec : ImportSpec) (rest : List ImportSpec)
    (s : String) (h : goToString spec.path = some s) :
    canonSet m (spec :: rest)
      = insert (ImportsParser.canonicalGo ⟨m, ∅⟩ s) (canonSet m rest) := by
  simp [canonSet, h]

theorem importGoList_eq (imps : List ImportSpec) :
    ∀ (p p2 : ImportsParser), importGoList p imps = some p2 →
      p2 = ⟨p.mod, p.imports ∪ canonSet p.mod imps⟩ := by
  induction imps with
  | nil =>
    intro p p2 h
    simp only [importGoList, Option.some.injEq] at h
    rw [← h, canonSet_nil, Finset.union_empty]
  | cons spec rest ih =>
    intro p p2 h
    cases hq : goToString spec.path with
    | none => simp [importGoList, ImportsParser.importGo, hq] at h
    | some s =>
      simp only [importGoList, ImportsParser.importGo, hq] at h
      have h2 := ih _ _ h
      have hc : p.canonicalGo s = ImportsParser.canonicalGo ⟨p.mod, ∅⟩ s :=
        canonicalGo_congr rfl s
      rw [h2, canonSet_cons_some p.mod spec rest s hq, ← hc]
      simp [ImportsParser.mk.injEq, Finset.insert_union, Finset.union_insert]

theorem importGoList_isSome (imps : List ImportSpec) :
    ∀ (p q : ImportsParser), (importGoList p imps).isSome = true →
      (importGoList q imps).isSome = true := by
  induction imps with
  | nil => intro p q _; simp [importGoList]
  | cons spec rest ih =>
    intro p q h
    cases hq : goToString spec.path with
    | none => simp [importGoList, ImportsParser.importGo, hq] at h
    | some s =>
      simp only [importGoList, ImportsParser.importGo, hq] at h ⊢
      exact ih _ _ h

/-- Claim C1 (counterexample): the claim "every raw path not beginning with a
relative-path marker (a leading `.` component such as `./` or `../`) is
returned unchanged" fails on the code: `.foo` begins with no such marker,
yet `canonicalGo` joins it onto the module root, because the code tests
only for the string prefix `"."`. -/
theorem canonicalGo_dotfile_cex :
    hasLeadingDotComponent ".foo" = false ∧
    ImportsParser.canonicalGo ⟨⟨"example.com/proj"⟩, ∅⟩ ".foo" ≠ ".foo" := by
  decide

/-- Claim C1 (amended): every raw import path that does not begin with the
character `.` is returned unchanged by canonicalization, for every
Module. -/
theorem canonicalGo_plain_unchanged (p : ImportsParser) (s : String)
    (h : strStartsWith s "." = false) : p.canonicalGo s = s := by
  simp [ImportsParser.canonicalGo, h]

theorem canonicalGo_plain_unchanged_inst :
    strStartsWith "fmt" "." = false ∧
    ImportsParser.canonicalGo ⟨⟨"example.com/proj"⟩, ∅⟩ "fmt" = "fmt" :=
  ⟨by decide, canonicalGo_plain_unchanged ⟨⟨"example.com/proj"⟩, ∅⟩ "fmt" (by decide)⟩

/-- Claim C2: for every raw path beginning with a relative-path marker (a
leading `.` component: `.`, `..`, `./x` or `../x`) and every Module, the
result is the normalized slash-join of the module root path and the raw
path; in particular the two example instances of the spec hold. -/
theorem canonicalGo_relative_join :
    (∀ (p : ImportsParser) (s : String), hasLeadingDotComponent s = true →
      p.canonicalGo s = pathJoin p.mod.Path s)
    ∧ ImportsParser.canonicalGo ⟨⟨"example.com/proj"⟩, ∅⟩ "./sub"
        = "example.com/proj/sub"
    ∧ ImportsParser.canonicalGo ⟨⟨"example.com/proj/pkg"⟩, ∅⟩ "../sibling"
        = "example.com/proj/sibling" := by
  refine ⟨fun p s h => ?_, by decide, by decide⟩
  simp [ImportsParser.canonicalGo, startsWith_dot_of_marker s h]

theorem canonicalGo_relative_join_inst :
    hasLeadingDotComponent "./sub" = true ∧
    ImportsParser.canonicalGo ⟨⟨"example.com/proj"⟩, ∅⟩ "./sub"
      = pathJoin "example.com/proj" "./sub" :=
  ⟨by decide, canonicalGo_relative_join.1 ⟨⟨"example.com/proj"⟩, ∅⟩ "./sub" (by decide)⟩

/-- Claim C7: canonicalization is total and pure: it is a plain Lean function on
strings (no error, panic or state channel exists in its type, matching the
source, whose string operations cannot fail), and its value is completely
characterized for every input; a relative path whose `..` segments escape
above the module root still yields a well-defined result. -/
theorem canonicalGo_total :
    (∀ (p : ImportsParser) (s : String),
      p.canonicalGo s = if strStartsWith s "." then pathJoin p.mod.Path s else s)
    ∧ ImportsParser.canonicalGo ⟨⟨"example.com/proj"⟩, ∅⟩ "../../../x" = "../x" :=
  ⟨fun _ _ => rfl, by decide⟩

/-- Claim C10: the relativeness test of `canonicalGo` is a bare leading-dot
prefix check: every path whose first character is `.` is joined onto the
module root, even `.foo` and `...x`, which contain no `./` or `../`
relative marker. -/
theorem canonicalGo_dot_prefix_join :
    (∀ (p : ImportsParser) (s : String), strStartsWith s "." = true →
      p.canonicalGo s = pathJoin p.mod.Path s)
    ∧ hasLeadingDotComponent ".foo" = false
    ∧ ImportsParser.canonicalGo ⟨⟨"example.com/proj"⟩, ∅⟩ ".foo"
        = "example.com/proj/.foo"
    ∧ hasLeadingDotComponent "...x" = false
    ∧ ImportsParser.canonicalGo ⟨⟨"example.com/proj"⟩, ∅⟩ "...x"
        = "example.com/proj/...x" := by
  refine ⟨fun p s h => ?_, by decide, by decide, by decide, by decide⟩
  simp [ImportsParser.canonicalGo, h]

theorem canonicalGo_dot_prefix_join_inst :
    strStartsWith ".hidden" "." = true ∧
    ImportsParser.canonicalGo ⟨⟨"m.com/a"⟩, ∅⟩ ".hidden" = pathJoin "m.com/a" ".hidden" :=
  ⟨by decide, canonicalGo_dot_prefix_join.1 ⟨⟨"m.com/a"⟩, ∅⟩ ".hidden" (by decide)⟩

/-- Claim C4: `goToString` returns the decoded value exactly when the token kind
is a string literal and unquoting succeeds; a non-string kind or a failed
unquote ends in the panic (modelled as `none`), never a typed error
return (the function's only channels are the value and the panic). -/
theorem goToString_contract (l : BasicLit) :
    (∀ s, l.kind = Token.STRING → goUnquote l.value = some s → goToString l = some s)
    ∧ (l.kind ≠ Token.STRING → goToString l = none)
    ∧ (goUnquote l.value = none → goToString l = none) := by
  refine ⟨fun s hk hu => ?_, fun hk => ?_, fun hu => ?_⟩
  · simp [goToString, hk, hu]
  · simp [goToString, hk]
  · by_cases hk : l.kind = Token.STRING <;> simp [goToString, hk, hu]

theorem goToString_contract_inst :
    goToString ⟨Token.STRING, "\"fmt\""⟩ = some "fmt" ∧
    goToString ⟨Token.INT, "42"⟩ = none ∧
    goToString ⟨Token.STRING, "\"\\z\""⟩ = none :=
  ⟨(goToString_contract ⟨Token.STRING, "\"fmt\""⟩).1 "fmt" rfl (by decide),
   (goToString_contract ⟨Token.INT, "42"⟩).2.1 (by decide),
   (goToString_contract ⟨Token.STRING, "\"\\z\""⟩).2.2 (by decide)⟩

/-- Claim C9: decoding round-trip: every string-literal token whose raw text is
a well-formed quoting of `s` (that is, unquoting its raw text yields `s`)
decodes through `goToString` to exactly `s`. -/
theorem goToString_roundtrip (raw s : String) (h : goUnquote raw = some s) :
    goToString ⟨Token.STRING, raw⟩ = some s := by
  simp [goToString, h]

theorem goToString_roundtrip_inst :
    goToString ⟨Token.STRING, "\"strings\""⟩ = some "strings" ∧
    goToString ⟨Token.STRING, "\"a\\\"b\""⟩ = some "a\"b" ∧
    goToString ⟨Token.STRING, "\"caf\\u00e9\""⟩ = some "caf\u00e9" :=
  ⟨goToString_roundtrip "\"strings\"" "strings" (by decide),
   goToString_roundtrip "\"a\\\"b\"" "a\"b" (by decide),
   goToString_roundtrip "\"caf\\u00e9\"" "caf\u00e9" (by decide)⟩

/-- Claim C3: when the header parse fails, `ParseGoImport` returns that error
unchanged and the parser state — in particular the accumulated dependency
set, with every entry of earlier successful calls — is exactly what it was
before the call. -/
theorem ParseGoImport_error_atomic (p : ImportsParser) (f : GoFile) (e : String)
    (h : f.parsed = Except.error e) :
    p.ParseGoImport f = some (p, some e) := by
  simp [ImportsParser.ParseGoImport, h]

theorem ParseGoImport_error_atomic_inst :
    ImportsParser.ParseGoImport ⟨⟨"example.com/app"⟩, {"fmt"}⟩
        ⟨Except.error "expected declaration"⟩
      = some (⟨⟨"example.com/app"⟩, {"fmt"}⟩, some "expected declaration") :=
  ParseGoImport_error_atomic ⟨⟨"example.com/app"⟩, {"fmt"}⟩
    ⟨Except.error "expected declaration"⟩ "expected declaration" rfl

/-- Claim C8: monotonic growth: every `ParseGoImport` call that terminates
normally (returning either an error or success) only adds keys to the
accumulated dependency set — the set afterwards is a superset of the set
before. -/
theorem ParseGoImport_monotone (p p2 : ImportsParser) (f : GoFile) (r : Option String)
    (h : p.ParseGoImport f = some (p2, r)) :
    p.imports ⊆ p2.imports := by
  cases hf : f.parsed with
  | error e =>
    simp only [ImportsParser.ParseGoImport, hf, Option.some.injEq, Prod.mk.injEq] at h
    rw [← h.1]
  | ok imps =>
    simp only [ImportsParser.ParseGoImport, hf] at h
    cases hl : importGoList p imps with
    | none => simp [hl] at h
    | some p3 =>
      rw [hl] at h
      simp only [Option.map_some', Option.some.injEq, Prod.mk.injEq] at h
      rw [← h.1, importGoList_eq imps p p3 hl]
      exact Finset.subset_union_left

theorem ParseGoImport_monotone_inst :
    (⟨⟨"example.com/app"⟩, {"fmt"}⟩ : ImportsParser).imports ⊆
      (⟨⟨"example.com/app"⟩, {"example.com/app/util", "fmt"}⟩ : ImportsParser).imports :=
  ParseGoImport_monotone ⟨⟨"example.com/app"⟩, {"fmt"}⟩
    ⟨⟨"example.com/app"⟩, {"example.com/app/util", "fmt"}⟩
    ⟨Except.ok [⟨⟨Token.STRING, "\"./util\""⟩⟩]⟩ none (by decide)

/-- Claim C5: idempotence: a second successful `ParseGoImport` of the same file
on the same parser leaves the accumulated dependency set (and the whole
parser state) exactly as after the first call — re-inserting an
already-present canonical path is a no-op of the set. -/
theorem ParseGoImport_idempotent (p p1 : ImportsParser) (f : GoFile)
    (h : p.ParseGoImport f = some (p1, none)) :
    p1.ParseGoImport f = some (p1, none) := by
  cases hf : f.parsed with
  | error e => simp [ImportsParser.ParseGoImport, hf] at h
  | ok imps =>
    simp only [ImportsParser.ParseGoImport, hf] at h ⊢
    cases hl : importGoList p imps with
    | none => simp [hl] at h
    | some p1' =>
      rw [hl] at h
      simp only [Option.map_some', Option.some.injEq, Prod.mk.injEq] at h
      obtain ⟨hp, -⟩ := h
      subst hp
      have hs : (importGoList p1' imps).isSome = true :=
        importGoList_isSome imps p p1' (by rw [hl]; rfl)
      obtain ⟨p2, h2⟩ := Option.isSome_iff_exists.mp hs
      have e1 := importGoList_eq imps p p1' hl
      have e2 := importGoList_eq imps p1' p2 h2
      have hmod : p1'.mod = p.mod := by rw [e1]
      have hp2 : p2 = p1' := by
        rw [e2, hmod, e1]
        simp [ImportsParser.mk.injEq, Finset.union_assoc, Finset.union_self]
      rw [h2, hp2, Option.map_some']

theorem ParseGoImport_idempotent_inst :
    ImportsParser.ParseGoImport
        ⟨⟨"example.com/app"⟩, {"example.com/app/util", "fmt"}⟩
        ⟨Except.ok [⟨⟨Token.STRING, "\"fmt\""⟩⟩, ⟨⟨Token.STRING, "\"./util\""⟩⟩]⟩
      = some (⟨⟨"example.com/app"⟩, {"example.com/app/util", "fmt"}⟩, none) :=
  ParseGoImport_idempotent ⟨⟨"example.com/app"⟩, ∅⟩
    ⟨⟨"example.com/app"⟩, {"example.com/app/util", "fmt"}⟩
    ⟨Except.ok [⟨⟨Token.STRING, "\"fmt\""⟩⟩, ⟨⟨Token.STRING, "\"./util\""⟩⟩]⟩ (by decide)

/-- Claim C6: order-independence: if parsing file A then file B on the same
parser succeeds, parsing B then A also succeeds and ends in the very same
parser state; the final accumulated set is the union of the starting set
with each file's canonicalized import set. -/
theorem ParseGoImport_order_independent (p pA pAB : ImportsParser) (A B : GoFile)
    (hA : p.ParseGoImport A = some (pA, none))
    (hB : pA.ParseGoImport B = some (pAB, none)) :
    ∃ pB : ImportsParser,
      p.ParseGoImport B = some (pB, none) ∧
      pB.ParseGoImport A = some (pAB, none) ∧
      ∃ impsA impsB, A.parsed = Except.ok impsA ∧ B.parsed = Except.ok impsB ∧
        pAB.imports = p.imports ∪ canonSet p.mod impsA ∪ canonSet p.mod impsB := by
  cases hfA : A.parsed with
  | error e => simp [ImportsParser.ParseGoImport, hfA] at hA
  | ok impsA =>
    simp only [ImportsParser.ParseGoImport, hfA] at hA
    cases hfB : B.parsed with
    | error e => simp [ImportsParser.ParseGoImport, hfB] at hB
    | ok impsB =>
      simp only [ImportsParser.ParseGoImport, hfB] at hB
      cases hlA : importGoList p impsA with
      | none => simp [hlA] at hA
      | some pA' =>
        rw [hlA] at hA
        simp only [Option.map_some', Option.some.injEq, Prod.mk.injEq] at hA
        obtain ⟨hpA, -⟩ := hA
        subst hpA
        cases hlB : importGoList pA' impsB with
        | none => simp [hlB] at hB
        | some pAB' =>
          rw [hlB] at hB
          simp only [Option.map_some', Option.some.injEq, Prod.mk.injEq] at hB
          obtain ⟨hpAB, -⟩ := hB
          subst hpAB
          have eA := importGoList_eq impsA p pA' hlA
          have eB := importGoList_eq impsB pA' pAB' hlB
          have hmodA : pA'.mod = p.mod := by rw [eA]
          obtain ⟨pB0, hB0⟩ := Option.isSome_iff_exists.mp
            (importGoList_isSome impsB pA' p (by rw [hlB]; rfl))
          obtain ⟨pBA, hBA⟩ := Option.isSome_iff_exists.mp
            (importGoList_isSome impsA p pB0 (by rw [hlA]; rfl))
          have eB0 := importGoList_eq impsB p pB0 hB0
          have eBA := importGoList_eq impsA pB0 pBA hBA
          have hmodB0 : pB0.mod = p.mod := by rw [eB0]
          have hfinal : pBA = pAB' := by
            rw [eBA, hmodB0, eB0, eB, hmodA, eA]
            simp only [ImportsParser.mk.injEq, true_and]
            rw [Finset.union_assoc, Finset.union_assoc,
              Finset.union_comm (canonSet p.mod impsB) (canonSet p.mod impsA)]
          refine ⟨pB0, ?_, ?_, impsA, impsB, rfl, rfl, ?_⟩
          · simp [ImportsParser.ParseGoImport, hfB, hB0]
          · simp [ImportsParser.ParseGoImport, hfA, hBA, hfinal]
          · rw [eB, hmodA, eA, Finset.union_assoc]

theorem ParseGoImport_order_independent_inst :
    ∃ pB : ImportsParser,
      ImportsParser.ParseGoImport ⟨⟨"example.com/app"⟩, ∅⟩
          ⟨Except.ok [⟨⟨Token.STRING, "\"./util\""⟩⟩]⟩ = some (pB, none) ∧
      pB.ParseGoImport ⟨Except.ok [⟨⟨Token.STRING, "\"fmt\""⟩⟩]⟩
        = some (⟨⟨"example.com/app"⟩, {"example.com/app/util", "fmt"}⟩, none) ∧
      ∃ impsA impsB,
        (⟨Except.ok [⟨⟨Token.STRING, "\"fmt\""⟩⟩]⟩ : GoFile).parsed = Except.ok impsA ∧
        (⟨Except.ok [⟨⟨Token.STRING, "\"./util\""⟩⟩]⟩ : GoFile).parsed = Except.ok impsB ∧
        (⟨⟨"example.com/app"⟩, {"example.com/app/util", "fmt"}⟩ : ImportsParser).imports
          = (∅ : Finset String) ∪ canonSet ⟨"example.com/app"⟩ impsA
              ∪ canonSet ⟨"example.com/app"⟩ impsB :=
  ParseGoImport_order_independent ⟨⟨"example.com/app"⟩, ∅⟩
    ⟨⟨"example.com/app"⟩, {"fmt"}⟩
    ⟨⟨"example.com/app"⟩, {"example.com/app/util", "fmt"}⟩
    ⟨Except.ok [⟨⟨Token.STRING, "\"fmt\""⟩⟩]⟩
    ⟨Except.ok [⟨⟨Token.STRING, "\"./util\""⟩⟩]⟩
    (by decide) (by decide)

end GopDeps
